import Mathlib

set_option linter.unusedVariables false

/-!
Verification of the L1-cache-benchmark latency prober (src/hw-1/main.cpp).

The program is embedded shallowly:

* The backing buffer `uint32_t *array` is a total function `Buf = Nat → Nat`;
  an assignment `array[i] = v` is the pointwise update `upd`.
* All `uint32_t` arithmetic is `Nat` arithmetic reduced modulo `U32 = 2 ^ 32`
  exactly where the C++ computes a 32-bit result (index and value
  computations in the pattern generators, the precondition check in `main`,
  the stride doubling in the sweep).
* `std::shuffle(indexes.begin(), indexes.end(), gen)` is modelled by passing
  the permutation it produced as an explicit argument `p`; the state of the
  `mt19937` engine `gen` is modelled as a counter into a stream
  `shuffles : Nat → Nat → List Nat` (`shuffles k n` is the permutation of
  `0..n-1` produced by the k-th `std::shuffle` call of the run).  The C++
  standard only guarantees that the result is a permutation of the input,
  which is the hypothesis `(shuffles k n).Perm (List.range n)` used below.
* The `steady_clock` interval measured in a batch is environmental input: a
  stream `measures : Nat → Nat` of nanosecond counts (non-negative because
  the clock is monotonic), one entry consumed per batch.
* Loops are embedded step by step; the two `while` loops whose trip count is
  not syntactically bounded (`fillDirectIndexes`, `fillReverseIndexes`, and
  the stride loop of the sweep) take explicit fuel.  For the fill loops fuel
  `elems` is exact for every `elems ≥ 1`: the direct loop index reaches the
  bound `stride*(elems-1) mod 2^32` at step `elems-1` and breaks, and the
  reverse loop is bounded by its own counter `cnt < elems`.
-/

/-- U32 is the modulus of `uint32_t` arithmetic. -/
def U32 : Nat := 2 ^ 32

/-- Buf models the backing buffer `uint32_t *array` as a total map from
index to stored value. -/
abbrev Buf : Type := Nat → Nat

/-- upd models a single store `array[i] = v`. -/
def upd (a : Buf) (i v : Nat) : Buf := fun q => if q = i then v else a q

/-- ARRAY_READS_COUNT from line 15 of main.cpp. -/
def ARRAY_READS_COUNT : Nat := 1000000

/-- WARNUP_READS_COUNT from line 16 of main.cpp. -/
def WARNUP_READS_COUNT : Nat := 5000

/-- BATCHES_COUNT from line 17 of main.cpp. -/
def BATCHES_COUNT : Nat := 5

/-- PAGE_SIZE from line 18 of main.cpp. -/
def PAGE_SIZE : Nat := 2 ^ 14

/-- genSeed is the seed of the global engine `std::mt19937 gen(239)`
(line 19 of main.cpp). -/
def genSeed : Nat := 239

/-- timeFactor is the display divisor `10'000` of
`capacityAndAssociativity`. -/
def timeFactor : Nat := 10000

/-- fillDirectLoop embeds the loop of `fillDirectIndexes`:
`for (i = 0; i <= stride*(elems-1); i += stride)` with the body writing
`array[i] = i + stride` and breaking with `array[i] = 0` at the bound.
`B` is the 32-bit value `stride*(elems-1)`, `i` the current index, and the
state carries the buffer together with the list of written positions. -/
def fillDirectLoop (stride B : Nat) : Nat → Nat → Buf × List Nat → Buf × List Nat
  | 0, _, s => s
  | fuel + 1, i, s =>
    if B < i then s
    else if i = B then (upd s.1 i 0, s.2 ++ [i])
    else fillDirectLoop stride B fuel ((i + stride) % U32)
      (upd s.1 i ((i + stride) % U32), s.2 ++ [i])

/-- fillDirectIndexes embeds `fillDirectIndexes(stride, elems)` from
main.cpp lines 49-60.  The bound `stride*(elems-1)` is computed in
`uint32_t` (`elems - 1` wraps for `elems = 0`).  Fuel `elems` is exact for
all `elems ≥ 1`. Returns the final buffer and the written positions. -/
def fillDirectIndexes (stride elems : Nat) (a : Buf) : Buf × List Nat :=
  fillDirectLoop stride ((stride * ((elems + U32 - 1) % U32)) % U32) elems 0 (a, [])

/-- fillReverseLoop embeds the loop of `fillReverseIndexes`:
`for (i = stride*(elems-1), cnt = 0; cnt < elems; i -= stride, cnt++)`,
writing `array[i] = i - stride` and breaking with
`array[0] = stride*(elems-1)` at index 0.  The fuel is `elems - cnt`. -/
def fillReverseLoop (stride B : Nat) : Nat → Nat → Buf × List Nat → Buf × List Nat
  | 0, _, s => s
  | fuel + 1, i, s =>
    if i = 0 then (upd s.1 0 B, s.2 ++ [0])
    else fillReverseLoop stride B fuel ((i + (U32 - stride % U32)) % U32)
      (upd s.1 i ((i + (U32 - stride % U32)) % U32), s.2 ++ [i])

/-- fillReverseIndexes embeds `fillReverseIndexes(stride, elems)` from
main.cpp lines 62-76. -/
def fillReverseIndexes (stride elems : Nat) (a : Buf) : Buf × List Nat :=
  fillReverseLoop stride ((stride * ((elems + U32 - 1) % U32)) % U32) elems
    ((stride * ((elems + U32 - 1) % U32)) % U32) (a, [])

/-- shufAddr is the store address `indexes[i] * stride` (32-bit product) of
iteration `i` of the linking loop of `fillShuffledIndexes`. -/
def shufAddr (stride : Nat) (p : List Nat) (i : Nat) : Nat :=
  (p.getD i 0 * stride) % U32

/-- shufVal is the stored value of iteration `i` of the linking loop of
`fillShuffledIndexes`: `indexes[i+1] * stride`, or `indexes[0] * stride` in
the `i == elems - 1` branch. -/
def shufVal (stride elems : Nat) (p : List Nat) (i : Nat) : Nat :=
  if i = elems - 1 then (p.getD 0 0 * stride) % U32
  else (p.getD (i + 1) 0 * stride) % U32

set_option linter.unusedVariables false in
/-- fillShuffledIndexes embeds `fillShuffledIndexes(stride, elems, seed)`
from main.cpp lines 78-95.  `p` is the permutation of `0..elems-1` produced
by `std::shuffle` on the vector `indexes` (the vector is filled with
`0..elems-1` and then shuffled by the global engine `gen`).  The `seed`
parameter is declared with default value 42 and, exactly as in the source,
is never used by the body.  Returns the final buffer and the list of
written positions, in write order. -/
def fillShuffledIndexes (stride elems seed : Nat) (p : List Nat) (a : Buf) : Buf × List Nat :=
  (List.range elems).foldl
    (fun s i => (upd s.1 (shufAddr stride p i) (shufVal stride elems p i),
                 s.2 ++ [shufAddr stride p i]))
    (a, [])

/-- chase iterates `idx = array[idx]` for `t` steps and returns the final
index, i.e. the position reached after `t` chained reads from `idx`. -/
def chase (b : Buf) : Nat → Nat → Nat
  | 0, idx => idx
  | t + 1, idx => chase b t (b idx)

/-- chaseLoop embeds a read loop `for (i = 0, idx = start; i < n; i++)
{ idx = array[idx]; sink = idx; }`: it returns the list of addresses read
(the value of `idx` at each read) and the final index. -/
def chaseLoop (b : Buf) : Nat → Nat → List Nat × Nat
  | 0, idx => ([], idx)
  | n + 1, idx =>
    let r := chaseLoop b n (b idx)
    (idx :: r.1, r.2)

/-- inFoot states that `q` is one of the selected positions
`{0, stride, ..., (elems-1)*stride}` of a pattern. -/
def inFoot (stride elems q : Nat) : Prop := ∃ k ∈ List.range elems, q = k * stride

/-- singleCycle states the single-cycle contract of a generated pattern:
chasing from position 0 returns to 0 after exactly `elems` steps and no
position is visited twice before that return. -/
def singleCycle (b : Buf) (elems : Nat) : Prop :=
  chase b elems 0 = 0 ∧
  ∀ t1, t1 < elems → ∀ t2, t2 < t1 → chase b t1 0 ≠ chase b t2 0

instance (stride elems q : Nat) : Decidable (inFoot stride elems q) := by
  unfold inFoot
  infer_instance

instance (b : Buf) (elems : Nat) : Decidable (singleCycle b elems) := by
  unfold singleCycle
  infer_instance

/-- zbuf is an all-zero initial buffer, used for concrete instances. -/
def zbuf : Buf := fun _ => 0

/-- bufSeven is an initial buffer holding 7 everywhere, used to observe
frame violations at concrete inputs. -/
def bufSeven : Buf := fun _ => 7

/-- SweepEnv packages the environmental inputs of a run: `shuffles k n` is
the permutation of `0..n-1` that the k-th `std::shuffle` call of the run
produces (the engine state is the call counter `k`), and `measures k` is
the nanosecond count of the k-th timed interval `end - start` (one per
batch, non-negative since `steady_clock` is monotonic). -/
structure SweepEnv where
  shuffles : Nat → Nat → List Nat
  measures : Nat → Nat

/-- BState is the machine state threaded through the batch loop of
`timeOfArrayRead`: the buffer, the number of shuffles and of timed
intervals consumed so far, the `volatile uint32_t sink`, the accumulated
`diff`, and (as observation) the addresses read by each warmup phase and
each timed phase, one list per completed batch. -/
structure BState where
  buf : Buf
  shufC : Nat
  measC : Nat
  sink : Nat
  diff : Nat
  warmTraces : List (List Nat)
  timedTraces : List (List Nat)

/-- batchStep embeds one iteration of the batch loop of `timeOfArrayRead`
(main.cpp lines 103-121): regenerate the shuffled pattern, run the warmup
loop (`idx` starting at 0), run the timed loop (`idx` starting again at 0),
accumulate the measured interval.  The `sink` is the last value stored by
whichever read loop ran last. -/
def batchStep (env : SweepEnv) (stride elems readsCount warnupReadsCount : Nat)
    (s : BState) (batch : Nat) : BState :=
  let buf := (fillShuffledIndexes stride elems 42 (env.shuffles s.shufC elems) s.buf).1
  let w := chaseLoop buf warnupReadsCount 0
  let t := chaseLoop buf readsCount 0
  { buf := buf
    shufC := s.shufC + 1
    measC := s.measC + 1
    sink := if readsCount = 0 then (if warnupReadsCount = 0 then s.sink else w.2) else t.2
    diff := s.diff + env.measures s.measC
    warmTraces := s.warmTraces ++ [w.1]
    timedTraces := s.timedTraces ++ [t.1] }

/-- timeOfArrayRead embeds `timeOfArrayRead(stride, elems, readsCount,
warnupReadsCount, batchesCount)` from main.cpp lines 97-126.  It returns
the value of the C++ function (`diff / batchesCount`, integer division of
the nanosecond count) together with the final machine state. -/
def timeOfArrayRead (env : SweepEnv) (stride elems readsCount warnupReadsCount batchesCount : Nat)
    (buf0 : Buf) (shufC0 measC0 : Nat) : Nat × BState :=
  let s := (List.range batchesCount).foldl
    (batchStep env stride elems readsCount warnupReadsCount)
    { buf := buf0, shufC := shufC0, measC := measC0, sink := 0, diff := 0,
      warmTraces := [], timedTraces := [] }
  (s.diff / batchesCount, s)

/-- bufAfter gives the buffer contents after the first `b` batches of a
`timeOfArrayRead` call have regenerated the pattern: `b` nested
`fillShuffledIndexes` applications consuming the shuffle draws
`shufC0, shufC0 + 1, ...` in order. -/
def bufAfter (env : SweepEnv) (stride elems : Nat) (buf0 : Buf) (shufC0 : Nat) : Nat → Buf
  | 0 => buf0
  | b + 1 => (fillShuffledIndexes stride elems 42 (env.shuffles (shufC0 + b) elems)
      (bufAfter env stride elems buf0 shufC0 b)).1

/-- timedContinuesFromWarmup formalizes claim C2 as stated: within each
batch, the timed phase performs its `readsCount` chained reads starting
from the index value at which that batch's warmup phase left off. -/
def timedContinuesFromWarmup (env : SweepEnv)
    (stride elems readsCount warnupReadsCount batchesCount : Nat)
    (buf0 : Buf) (shufC0 measC0 : Nat) : Prop :=
  ∀ b, b < batchesCount →
    ((timeOfArrayRead env stride elems readsCount warnupReadsCount batchesCount
        buf0 shufC0 measC0).2.timedTraces.getD b [])
      = (List.range readsCount).map (fun t =>
          chase (bufAfter env stride elems buf0 shufC0 (b + 1)) t
            (chase (bufAfter env stride elems buf0 shufC0 (b + 1)) warnupReadsCount 0))

/-- Cell records one invocation of the Timed Reader during the sweep: the
stride in elements, the stride power-of-two column index, the working-set
size in elements, and the duration stored into the grid. -/
structure Cell where
  stride : Nat
  pow : Nat
  elems : Nat
  value : Nat
deriving DecidableEq

/-- upd2 models a store `g[i][j] = v` into a 2D grid of naturals. -/
def upd2 (g : Nat → Nat → Nat) (i j v : Nat) : Nat → Nat → Nat :=
  fun x y => if x = i then (if y = j then v else g x y) else g x y

/-- upd2b models a store `g[i][j] = v` into a 2D grid of booleans. -/
def upd2b (g : Nat → Nat → Bool) (i j : Nat) (v : Bool) : Nat → Nat → Bool :=
  fun x y => if x = i then (if y = j then v else g x y) else g x y

/-- SweepState is the state of `capacityAndAssociativity`: the `times` and
`jumps` grids (indexed `[elems][stridePow]`), the machine state threaded
through the `timeOfArrayRead` calls, the current `stridePow`, the
`prevTime` local, and the trace of Timed Reader invocations. -/
structure SweepState where
  times : Nat → Nat → Nat
  jumps : Nat → Nat → Bool
  buf : Buf
  shufC : Nat
  measC : Nat
  stridePow : Nat
  prevTime : Nat
  cells : List Cell

/-- elemsList enumerates the values taken by `elems` in the inner loop
`for (elems = 1; elems < maxAssoc; elems++)`: the list `1, ..., maxAssoc-1`. -/
def elemsList (maxAssoc : Nat) : List Nat :=
  (List.range (maxAssoc - 1)).map (fun k => k + 1)

/-- innerStep embeds one iteration of the inner loop of
`capacityAndAssociativity` (main.cpp lines 150-169): invoke the Timed
Reader, store the duration into `times[elems][stridePow]`, run the
(disabled) jump detection — `isJump` is hardcoded `false`, the call to
`deltaDiff` being commented out — and update `prevTime`. -/
def innerStep (env : SweepEnv) (stride : Nat) (s : SweepState) (elems : Nat) : SweepState :=
  let r := timeOfArrayRead env stride elems ARRAY_READS_COUNT WARNUP_READS_COUNT BATCHES_COUNT
    s.buf s.shufC s.measC
  let currentTime := r.1
  let isJump : Bool := false
  { times := upd2 s.times elems s.stridePow currentTime
    jumps := if 1 < elems then
        (if isJump then upd2b s.jumps elems s.stridePow true else s.jumps)
      else s.jumps
    buf := r.2.buf
    shufC := r.2.shufC
    measC := r.2.measC
    stridePow := s.stridePow
    prevTime := currentTime
    cells := s.cells ++ [⟨stride, s.stridePow, elems, currentTime⟩] }

/-- bumpPow models the `stridePow++` at the end of one outer iteration. -/
def bumpPow (s : SweepState) : SweepState := { s with stridePow := s.stridePow + 1 }

/-- sweepLoop embeds the outer loop of `capacityAndAssociativity`:
`while (stride * sizeof(uint32_t) <= maxStride)` run the inner loop over
`elems`, then double the stride (32-bit) and increment `stridePow`.  The
loop takes fuel since `uint32_t` wraparound of `stride` could make the
source loop diverge; every claim below either holds for all fuel or is
about an instantiation whose iteration count the fuel dominates. -/
def sweepLoop (env : SweepEnv) (maxAssoc maxStride : Nat) : Nat → Nat → SweepState → SweepState
  | 0, _, s => s
  | fuel + 1, stride, s =>
    if (stride * 4) % U32 ≤ maxStride then
      sweepLoop env maxAssoc maxStride fuel ((stride * 2) % U32)
        (bumpPow ((elemsList maxAssoc).foldl (innerStep env stride) s))
    else s

/-- capacityAndAssociativity embeds `capacityAndAssociativity(maxMemory,
maxAssoc, maxStride, minStride)` from main.cpp lines 134-174 (the
measurement part; the printing after it reads the state and is modelled by
`timeWithJump`).  The initial stride is `minStride / sizeof(uint32_t)`
elements, the grids start zero / all-false, `stridePow` starts at 0. -/
def capacityAndAssociativity (env : SweepEnv) (maxMemory maxAssoc maxStride minStride fuel : Nat)
    (buf0 : Buf) (shufC0 measC0 : Nat) : SweepState :=
  sweepLoop env maxAssoc maxStride fuel (minStride / 4)
    { times := fun _ _ => 0, jumps := fun _ _ => false, buf := buf0,
      shufC := shufC0, measC := measC0, stridePow := 0, prevTime := 0, cells := [] }

/-- strideSeq lists the (stride, stridePow) pairs visited by the outer
sweep loop, with the same guard, 32-bit doubling and fuel as `sweepLoop`. -/
def strideSeq (maxStride : Nat) : Nat → Nat → Nat → List (Nat × Nat)
  | 0, _, _ => []
  | fuel + 1, stride, pow =>
    if (stride * 4) % U32 ≤ maxStride then
      (stride, pow) :: strideSeq maxStride fuel ((stride * 2) % U32) (pow + 1)
    else []

/-- enumCells is the (stride, stridePow, elems) enumeration claimed for the
sweep: every stride of the stride sequence paired with every `elems` in
`1..maxAssoc-1`, in sweep order. -/
def enumCells (maxAssoc : Nat) : List (Nat × Nat) → List (Nat × Nat × Nat)
  | [] => []
  | sp :: rest => (elemsList maxAssoc).map (fun e => (sp.1, sp.2, e)) ++ enumCells maxAssoc rest

/-- cellKey projects an invocation record to (stride, stridePow, elems). -/
def cellKey (c : Cell) : Nat × Nat × Nat := (c.stride, c.pow, c.elems)

/-- timeWithJump embeds the cell rendering of the report
(main.cpp lines 189-190): `(jumps[s][p] ? "[+]" : "") + std::to_string(time)`. -/
def timeWithJump (j : Bool) (time : Nat) : String :=
  (if j then "[+]" else "") ++ toString time

/-- rassert embeds `rassert(expr, id)` (main.cpp lines 26-31): on failure
the process prints the identifier `id` to `stderr` and exits with status 1,
modelled as the exceptional result `(1, id)` = (exit status, printed id). -/
def rassert (expr : Bool) (id : Nat) : Except (Nat × Nat) Unit :=
  if expr then Except.ok () else Except.error (1, id)

/-- mainStartup embeds the startup of `main` (lines 197-206) up to and
including the allocation: the precondition `maxAssoc * maxStride <=
maxMemory` is checked (32-bit product) by `rassert(_, 1)` and only if it
passes is the buffer allocated, with `arrayLen = maxMemory /
sizeof(uint32_t)` elements; the ok value is that length.  An error result
means the process exited, with the given status and printed identifier,
before the allocation was reached. -/
def mainStartup (maxMemory maxAssoc maxStride minStride : Nat) : Except (Nat × Nat) Nat :=
  match rassert (decide ((maxAssoc * maxStride) % U32 ≤ maxMemory)) 1 with
  | Except.error e => Except.error e
  | Except.ok _ => Except.ok (maxMemory / 4)

/-- envC is a concrete environment for evaluated instances: the k-th
shuffle yields the identity permutation and the k-th timed interval is k
nanoseconds. -/
def envC : SweepEnv := { shuffles := fun _ n => List.range n, measures := fun k => k }

theorem upd_same (a : Buf) (i v : Nat) : upd a i v i = v := by simp [upd]

theorem upd_other (a : Buf) (i v q : Nat) (h : q ≠ i) : upd a i v q = a q := by
  simp [upd, h]

theorem foldPair_fst (f g : Nat → Nat) :
    ∀ (l : List Nat) (a : Buf) (w : List Nat),
      (l.foldl (fun s i => (upd s.1 (f i) (g i), s.2 ++ [f i])) (a, w)).1
        = l.foldl (fun b i => upd b (f i) (g i)) a := by
  intro l
  induction l with
  | nil => intro a w; rfl
  | cons x xs ih => intro a w; simpa using ih (upd a (f x) (g x)) (w ++ [f x])

theorem foldPair_snd (f g : Nat → Nat) :
    ∀ (l : List Nat) (a : Buf) (w : List Nat),
      (l.foldl (fun s i => (upd s.1 (f i) (g i), s.2 ++ [f i])) (a, w)).2
        = w ++ l.map f := by
  intro l
  induction l with
  | nil => intro a w; simp
  | cons x xs ih =>
      intro a w
      simp only [List.foldl_cons, List.map_cons]
      rw [ih (upd a (f x) (g x)) (w ++ [f x])]
      simp

theorem foldWrite_apply (f g : Nat → Nat) :
    ∀ (n : Nat) (a : Buf) (j : Nat), j < n →
      (∀ i1 i2, i1 < n → i2 < n → f i1 = f i2 → i1 = i2) →
      ((List.range n).foldl (fun b i => upd b (f i) (g i)) a) (f j) = g j := by
  intro n
  induction n with
  | zero => intro a j hj; omega
  | succ n ih =>
      intro a j hj hinj
      rw [List.range_succ, List.foldl_append]
      simp only [List.foldl_cons, List.foldl_nil]
      by_cases hjn : j = n
      · subst hjn; exact upd_same ..
      · have hjlt : j < n := by omega
        have hne : f j ≠ f n := fun h => hjn (hinj j n (by omega) (by omega) h)
        rw [upd_other _ _ _ _ hne]
        exact ih a j hjlt (fun i1 i2 h1 h2 h => hinj i1 i2 (by omega) (by omega) h)

theorem foldWrite_frame (f g : Nat → Nat) :
    ∀ (n : Nat) (a : Buf) (q : Nat), (∀ i, i < n → f i ≠ q) →
      ((List.range n).foldl (fun b i => upd b (f i) (g i)) a) q = a q := by
  intro n
  induction n with
  | zero => intro a q hq; rfl
  | succ n ih =>
      intro a q hq
      rw [List.range_succ, List.foldl_append]
      simp only [List.foldl_cons, List.foldl_nil]
      rw [upd_other _ _ _ _ (fun h => hq n (by omega) h.symm)]
      exact ih a q (fun i hi => hq i (by omega))

theorem fillShuffled_fst (stride elems seed : Nat) (p : List Nat) (a : Buf) :
    (fillShuffledIndexes stride elems seed p a).1
      = (List.range elems).foldl
          (fun b i => upd b (shufAddr stride p i) (shufVal stride elems p i)) a :=
  foldPair_fst _ _ _ a []

theorem fillShuffled_snd (stride elems seed : Nat) (p : List Nat) (a : Buf) :
    (fillShuffledIndexes stride elems seed p a).2
      = (List.range elems).map (shufAddr stride p) := by
  simpa using foldPair_snd (shufAddr stride p) (shufVal stride elems p)
    (List.range elems) a []

theorem perm_range_length (elems : Nat) (p : List Nat) (hp : p.Perm (List.range elems)) :
    p.length = elems := by
  simpa using hp.length_eq

theorem perm_range_nodup (elems : Nat) (p : List Nat) (hp : p.Perm (List.range elems)) :
    p.Nodup :=
  hp.nodup_iff.mpr (List.nodup_range elems)

theorem perm_range_getD_lt (elems : Nat) (p : List Nat) (hp : p.Perm (List.range elems))
    (i : Nat) (hi : i < elems) : p.getD i 0 < elems := by
  have hl : i < p.length := by rw [perm_range_length elems p hp]; exact hi
  rw [List.getD_eq_getElem p 0 hl]
  exact List.mem_range.mp (hp.subset (List.getElem_mem hl))

theorem perm_range_getD_inj (elems : Nat) (p : List Nat) (hp : p.Perm (List.range elems))
    (i1 i2 : Nat) (h1 : i1 < elems) (h2 : i2 < elems) (h : p.getD i1 0 = p.getD i2 0) :
    i1 = i2 := by
  have hl1 : i1 < p.length := by rw [perm_range_length elems p hp]; exact h1
  have hl2 : i2 < p.length := by rw [perm_range_length elems p hp]; exact h2
  rw [List.getD_eq_getElem p 0 hl1, List.getD_eq_getElem p 0 hl2] at h
  exact (List.Nodup.getElem_inj_iff (perm_range_nodup elems p hp)).mp h

theorem shufAddr_eq (stride elems : Nat) (p : List Nat) (hs : 1 ≤ stride)
    (hov : (elems - 1) * stride < U32) (hp : p.Perm (List.range elems))
    (i : Nat) (hi : i < elems) :
    shufAddr stride p i = p.getD i 0 * stride := by
  have hlt : p.getD i 0 < elems := perm_range_getD_lt elems p hp i hi
  have hb : p.getD i 0 * stride < U32 :=
    Nat.lt_of_le_of_lt (Nat.mul_le_mul_right stride (by omega)) hov
  simpa [shufAddr] using Nat.mod_eq_of_lt hb

theorem shufVal_eq (stride elems : Nat) (p : List Nat) (hs : 1 ≤ stride)
    (hov : (elems - 1) * stride < U32) (hp : p.Perm (List.range elems))
    (i : Nat) (hi : i < elems) :
    shufVal stride elems p i = p.getD ((i + 1) % elems) 0 * stride := by
  have he : 1 ≤ elems := by omega
  by_cases hlast : i = elems - 1
  · have hmod : (i + 1) % elems = 0 := by
      have h1 : i + 1 = elems := by omega
      rw [h1, Nat.mod_self]
    have hlt : p.getD 0 0 < elems := perm_range_getD_lt elems p hp 0 (by omega)
    have hb : p.getD 0 0 * stride < U32 :=
      Nat.lt_of_le_of_lt (Nat.mul_le_mul_right stride (by omega)) hov
    simp only [shufVal, if_pos hlast, hmod]
    exact Nat.mod_eq_of_lt hb
  · have hsucc : i + 1 < elems := by omega
    have hmod : (i + 1) % elems = i + 1 := Nat.mod_eq_of_lt hsucc
    have hlt : p.getD (i + 1) 0 < elems := perm_range_getD_lt elems p hp (i + 1) hsucc
    have hb : p.getD (i + 1) 0 * stride < U32 :=
      Nat.lt_of_le_of_lt (Nat.mul_le_mul_right stride (by omega)) hov
    simp only [shufVal, if_neg hlast, hmod]
    exact Nat.mod_eq_of_lt hb

theorem shufAddr_inj (stride elems : Nat) (p : List Nat) (hs : 1 ≤ stride)
    (hov : (elems - 1) * stride < U32) (hp : p.Perm (List.range elems))
    (i1 i2 : Nat) (h1 : i1 < elems) (h2 : i2 < elems)
    (h : shufAddr stride p i1 = shufAddr stride p i2) : i1 = i2 := by
  rw [shufAddr_eq stride elems p hs hov hp i1 h1,
      shufAddr_eq stride elems p hs hov hp i2 h2] at h
  exact perm_range_getD_inj elems p hp i1 i2 h1 h2
    (Nat.eq_of_mul_eq_mul_right (by omega) h)

theorem shuffled_apply (stride elems seed : Nat) (p : List Nat) (a : Buf)
    (hs : 1 ≤ stride) (hov : (elems - 1) * stride < U32) (hp : p.Perm (List.range elems))
    (j : Nat) (hj : j < elems) :
    (fillShuffledIndexes stride elems seed p a).1 (p.getD j 0 * stride)
      = p.getD ((j + 1) % elems) 0 * stride := by
  rw [fillShuffled_fst, ← shufAddr_eq stride elems p hs hov hp j hj,
    ← shufVal_eq stride elems p hs hov hp j hj]
  exact foldWrite_apply _ _ elems a j hj (shufAddr_inj stride elems p hs hov hp)

theorem shuffled_frame (stride elems seed : Nat) (p : List Nat) (a : Buf)
    (hs : 1 ≤ stride) (hov : (elems - 1) * stride < U32) (hp : p.Perm (List.range elems))
    (q : Nat) (hq : ¬ inFoot stride elems q) :
    (fillShuffledIndexes stride elems seed p a).1 q = a q := by
  rw [fillShuffled_fst]
  refine foldWrite_frame _ _ elems a q (fun i hi h => hq ?_)
  rw [shufAddr_eq stride elems p hs hov hp i hi] at h
  exact ⟨p.getD i 0, List.mem_range.mpr (perm_range_getD_lt elems p hp i hi), h.symm⟩

theorem chase_closure (b : Buf) (P : Nat → Prop) (hb : ∀ q, P q → P (b q)) :
    ∀ t idx, P idx → P (chase b t idx) := by
  intro t
  induction t with
  | zero => intro idx h; exact h
  | succ t ih => intro idx h; exact ih (b idx) (hb idx h)

theorem shuffled_chase (stride elems seed : Nat) (p : List Nat) (a : Buf)
    (hs : 1 ≤ stride) (hov : (elems - 1) * stride < U32) (hp : p.Perm (List.range elems)) :
    ∀ (t j : Nat), j < elems →
      chase (fillShuffledIndexes stride elems seed p a).1 t (p.getD j 0 * stride)
        = p.getD ((j + t) % elems) 0 * stride := by
  intro t
  induction t with
  | zero => intro j hj; simp [chase, Nat.mod_eq_of_lt hj]
  | succ t ih =>
      intro j hj
      have hstep : chase (fillShuffledIndexes stride elems seed p a).1 (t + 1)
            (p.getD j 0 * stride)
          = chase (fillShuffledIndexes stride elems seed p a).1 t
              (p.getD ((j + 1) % elems) 0 * stride) := by
        simp only [chase]
        rw [shuffled_apply stride elems seed p a hs hov hp j hj]
      rw [hstep, ih ((j + 1) % elems) (Nat.mod_lt _ (by omega))]
      have : ((j + 1) % elems + t) % elems = (j + (t + 1)) % elems := by
        rw [Nat.mod_add_mod]
        ring_nf
      rw [this]

/-- Claim C1 (corrected form): for every `stride ≥ 1` and `elems ≥ 1` with
`(elems-1)*stride < 2^32` (no 32-bit index overflow), after
`fillShuffledIndexes(stride, elems)` — for any permutation `p` of
`0..elems-1` produced by the shuffle — the written values form a single
cycle of length exactly `elems` over the positions
`{0, stride, ..., (elems-1)*stride}`: the chase from position 0 returns to
0 after exactly `elems` steps, no position is visited twice before that
return, and every visited position belongs to the selected set. -/
theorem claim_C1 (stride elems seed : Nat) (p : List Nat) (a : Buf)
    (hs : 1 ≤ stride) (he : 1 ≤ elems) (hov : (elems - 1) * stride < U32)
    (hp : p.Perm (List.range elems)) :
    singleCycle (fillShuffledIndexes stride elems seed p a).1 elems ∧
    ∀ t, t < elems →
      inFoot stride elems (chase (fillShuffledIndexes stride elems seed p a).1 t 0) := by
  obtain ⟨j0, hj0len, hj0⟩ : ∃ i, ∃ h : i < p.length, p[i] = 0 :=
    List.getElem_of_mem (hp.mem_iff.mpr (List.mem_range.mpr (by omega)))
  have hj0lt : j0 < elems := by
    rw [← perm_range_length elems p hp]; exact hj0len
  have hgetD : p.getD j0 0 = 0 := by
    rw [List.getD_eq_getElem p 0 hj0len]; exact hj0
  have hch : ∀ t, chase (fillShuffledIndexes stride elems seed p a).1 t 0
      = p.getD ((j0 + t) % elems) 0 * stride := by
    intro t
    have hstart : chase (fillShuffledIndexes stride elems seed p a).1 t 0
        = chase (fillShuffledIndexes stride elems seed p a).1 t (p.getD j0 0 * stride) := by
      rw [hgetD, Nat.zero_mul]
    rw [hstart]
    exact shuffled_chase stride elems seed p a hs hov hp t j0 hj0lt
  refine ⟨⟨?_, ?_⟩, ?_⟩
  · rw [hch elems]
    have hmod : (j0 + elems) % elems = j0 := by
      rw [Nat.add_mod_right]; exact Nat.mod_eq_of_lt hj0lt
    rw [hmod, hgetD, Nat.zero_mul]
  · intro t1 ht1 t2 ht2 heq
    rw [hch t1, hch t2] at heq
    have h1 : (j0 + t1) % elems < elems := Nat.mod_lt _ (by omega)
    have h2 : (j0 + t2) % elems < elems := Nat.mod_lt _ (by omega)
    have hidx : (j0 + t1) % elems = (j0 + t2) % elems :=
      perm_range_getD_inj elems p hp _ _ h1 h2
        (Nat.eq_of_mul_eq_mul_right (by omega) heq)
    have hmm : t1 % elems = t2 % elems := Nat.ModEq.add_left_cancel' j0 hidx
    rw [Nat.mod_eq_of_lt (by omega), Nat.mod_eq_of_lt (by omega)] at hmm
    omega
  · intro t ht
    rw [hch t]
    exact ⟨p.getD ((j0 + t) % elems) 0,
      List.mem_range.mpr (perm_range_getD_lt elems p hp _ (Nat.mod_lt _ (by omega))), rfl⟩

/-- Witness for claim C1: stride 1, elems 3, shuffle output [1, 0, 2]. -/
theorem claim_C1_witness :
    (1 ≤ 1 ∧ 1 ≤ 3 ∧ (3 - 1) * 1 < U32 ∧ ([1, 0, 2] : List Nat).Perm (List.range 3)) ∧
    (singleCycle (fillShuffledIndexes 1 3 42 [1, 0, 2] zbuf).1 3 ∧
     ∀ t, t < 3 → inFoot 1 3 (chase (fillShuffledIndexes 1 3 42 [1, 0, 2] zbuf).1 t 0)) :=
  ⟨⟨by decide, by decide, by decide, by decide⟩,
   claim_C1 1 3 42 [1, 0, 2] zbuf (by decide) (by decide) (by decide) (by decide)⟩

/-- Counterexample to claim C1 as stated: at stride `2^31`, elems 3 (both
allowed by the claim), with shuffle output [0, 1, 2], the 32-bit index
arithmetic folds position `2*2^31` onto position 0, the cell at 0 ends up
pointing to itself, and position 0 is revisited at step 1 — the pattern is
not a single cycle of length 3. -/
theorem claim_C1_counterexample :
    (1 ≤ 2 ^ 31 ∧ 1 ≤ 3 ∧ ([0, 1, 2] : List Nat).Perm (List.range 3)) ∧
    ¬ singleCycle (fillShuffledIndexes (2 ^ 31) 3 42 [0, 1, 2] bufSeven).1 3 :=
  ⟨⟨by decide, by decide, by decide⟩, by decide⟩

theorem fill_B_eq (stride elems : Nat) (hs : 1 ≤ stride) (he : 1 ≤ elems)
    (hov : (elems - 1) * stride < U32) :
    (stride * ((elems + U32 - 1) % U32)) % U32 = (elems - 1) * stride := by
  have he1 : elems - 1 ≤ (elems - 1) * stride := by
    calc elems - 1 = (elems - 1) * 1 := (Nat.mul_one _).symm
    _ ≤ (elems - 1) * stride := Nat.mul_le_mul_left _ hs
  have he2 : elems - 1 < U32 := lt_of_le_of_lt he1 hov
  have h1 : (elems + U32 - 1) % U32 = elems - 1 := by
    have h2 : elems + U32 - 1 = U32 + (elems - 1) := by omega
    rw [h2, Nat.add_mod_left]
    exact Nat.mod_eq_of_lt he2
  rw [h1, Nat.mul_comm]
  exact Nat.mod_eq_of_lt hov

theorem directLoop_spec (stride elems : Nat) (hs : 1 ≤ stride)
    (hov : (elems - 1) * stride < U32) :
    ∀ (rem k : Nat) (a : Buf) (w : List Nat), k < elems → elems ≤ k + rem →
      (∀ j, k ≤ j → j + 1 < elems →
        (fillDirectLoop stride ((elems - 1) * stride) rem (k * stride) (a, w)).1 (j * stride)
          = (j + 1) * stride) ∧
      (fillDirectLoop stride ((elems - 1) * stride) rem (k * stride) (a, w)).1
          ((elems - 1) * stride) = 0 ∧
      (∀ q, (∀ j, k ≤ j → j < elems → q ≠ j * stride) →
        (fillDirectLoop stride ((elems - 1) * stride) rem (k * stride) (a, w)).1 q = a q) ∧
      (fillDirectLoop stride ((elems - 1) * stride) rem (k * stride) (a, w)).2
          = w ++ (List.range (elems - k)).map (fun t => (k + t) * stride) := by
  intro rem
  induction rem with
  | zero => intro k a w hk hle; omega
  | succ rem ih =>
      intro k a w hk hle
      have hnotgt : ¬ ((elems - 1) * stride < k * stride) := by
        intro h
        have := lt_of_mul_lt_mul_right h (Nat.zero_le stride)
        omega
      by_cases hkB : k * stride = (elems - 1) * stride
      · have hkeq : k = elems - 1 := Nat.eq_of_mul_eq_mul_right (by omega) hkB
        simp only [fillDirectLoop, if_neg hnotgt, if_pos hkB]
        refine ⟨?_, ?_, ?_, ?_⟩
        · intro j hkj hj1; omega
        · rw [← hkB]; exact upd_same ..
        · intro q hq
          exact upd_other _ _ _ _ (hq k (Nat.le_refl k) (by omega))
        · have hek : elems - k = 1 := by omega
          rw [hek]
          simp only [show List.range 1 = [0] from rfl, List.map_cons, List.map_nil, Nat.add_zero]
      · have hkne : k ≠ elems - 1 := fun h => hkB (by rw [h])
        have hk1 : k + 1 < elems := by omega
        have hlt1 : (k + 1) * stride < U32 :=
          lt_of_le_of_lt (Nat.mul_le_mul_right stride (by omega)) hov
        have hiv : (k * stride + stride) % U32 = (k + 1) * stride := by
          have h1 : k * stride + stride = (k + 1) * stride := (Nat.succ_mul k stride).symm
          rw [h1]
          exact Nat.mod_eq_of_lt hlt1
        simp only [fillDirectLoop, if_neg hnotgt, if_neg hkB, hiv]
        obtain ⟨ih1, ih2, ih3, ih4⟩ :=
          ih (k + 1) (upd a (k * stride) ((k + 1) * stride)) (w ++ [k * stride]) hk1 (by omega)
        refine ⟨?_, ih2, ?_, ?_⟩
        · intro j hkj hj1
          by_cases hjk : j = k
          · rw [hjk]
            have hframe : ∀ j2, k + 1 ≤ j2 → j2 < elems → k * stride ≠ j2 * stride := by
              intro j2 h2 h3 heq
              have h4 : k = j2 := Nat.eq_of_mul_eq_mul_right (by omega) heq
              omega
            rw [ih3 (k * stride) hframe, upd_same]
          · exact ih1 j (by omega) hj1
        · intro q hq
          rw [ih3 q (fun j2 h2 h3 => hq j2 (by omega) h3)]
          exact upd_other _ _ _ _ (hq k (Nat.le_refl k) (by omega))
        · rw [ih4]
          have hfun : ((fun t => (k + t) * stride) ∘ Nat.succ)
              = fun t => (k + 1 + t) * stride := by
            funext t
            simp only [Function.comp]
            congr 1
            omega
          have hr : (List.range (elems - k)).map (fun t => (k + t) * stride)
              = (k * stride) :: (List.range (elems - (k + 1))).map
                  (fun t => (k + 1 + t) * stride) := by
            have hek : elems - k = (elems - (k + 1)) + 1 := by omega
            rw [hek, List.range_succ_eq_map, List.map_cons, List.map_map, hfun]
            simp
          rw [hr]
          simp

theorem fillDirect_spec (stride elems : Nat) (a : Buf) (hs : 1 ≤ stride) (he : 1 ≤ elems)
    (hov : (elems - 1) * stride < U32) :
    (∀ j, j + 1 < elems →
      (fillDirectIndexes stride elems a).1 (j * stride) = (j + 1) * stride) ∧
    (fillDirectIndexes stride elems a).1 ((elems - 1) * stride) = 0 ∧
    (∀ q, (∀ j, j < elems → q ≠ j * stride) → (fillDirectIndexes stride elems a).1 q = a q) ∧
    (fillDirectIndexes stride elems a).2 = (List.range elems).map (fun t => t * stride) := by
  have hB := fill_B_eq stride elems hs he hov
  obtain ⟨h1, h2, h3, h4⟩ := directLoop_spec stride elems hs hov elems 0 a [] (by omega) (by omega)
  rw [Nat.zero_mul] at h1 h2 h3 h4
  unfold fillDirectIndexes
  rw [hB]
  refine ⟨fun j hj => h1 j (Nat.zero_le j) hj, h2,
    fun q hq => h3 q (fun j _ hj => hq j hj), ?_⟩
  rw [h4]
  simp

theorem reverseLoop_spec (stride elems : Nat) (hs : 1 ≤ stride) (hsM : stride < U32)
    (hov : (elems - 1) * stride < U32) :
    ∀ (k : Nat), k < elems → ∀ (rem : Nat), k + 1 ≤ rem → ∀ (a : Buf) (w : List Nat),
      (∀ j, 1 ≤ j → j ≤ k →
        (fillReverseLoop stride ((elems - 1) * stride) rem (k * stride) (a, w)).1 (j * stride)
          = (j - 1) * stride) ∧
      (fillReverseLoop stride ((elems - 1) * stride) rem (k * stride) (a, w)).1 0
        = (elems - 1) * stride ∧
      (∀ q, q ≠ 0 → (∀ j, 1 ≤ j → j ≤ k → q ≠ j * stride) →
        (fillReverseLoop stride ((elems - 1) * stride) rem (k * stride) (a, w)).1 q = a q) ∧
      (fillReverseLoop stride ((elems - 1) * stride) rem (k * stride) (a, w)).2
        = w ++ (List.range (k + 1)).map (fun t => (k - t) * stride) := by
  intro k
  induction k with
  | zero =>
      intro hk rem hrem a w
      match rem, hrem with
      | rem + 1, _ =>
        have hstep : fillReverseLoop stride ((elems - 1) * stride) (rem + 1) (0 * stride) (a, w)
            = (upd a 0 ((elems - 1) * stride), w ++ [0]) := by
          rw [Nat.zero_mul]
          simp [fillReverseLoop]
        rw [hstep]
        refine ⟨?_, ?_, ?_, ?_⟩
        · intro j h1 h2; omega
        · show upd a 0 ((elems - 1) * stride) 0 = (elems - 1) * stride
          exact upd_same ..
        · intro q hq _
          exact upd_other _ _ _ _ hq
        · simp only [show List.range 1 = [0] from rfl, List.map_cons, List.map_nil]
          simp
  | succ k ih =>
      intro hk rem hrem a w
      match rem, hrem with
      | rem + 1, hrem =>
        have hklt : (k + 1) * stride < U32 :=
          lt_of_le_of_lt (Nat.mul_le_mul_right stride (by omega)) hov
        have hkltk : k * stride < U32 :=
          lt_of_le_of_lt (Nat.mul_le_mul_right stride (by omega)) hov
        have hne : (k + 1) * stride ≠ 0 := Nat.mul_ne_zero (by omega) (by omega)
        have hdec : ((k + 1) * stride + (U32 - stride % U32)) % U32 = k * stride := by
          rw [Nat.mod_eq_of_lt hsM]
          have h3 : (k + 1) * stride = k * stride + stride := Nat.succ_mul k stride
          have h2 : (k + 1) * stride + (U32 - stride) = U32 + k * stride := by omega
          rw [h2, Nat.add_mod_left]
          exact Nat.mod_eq_of_lt hkltk
        simp only [fillReverseLoop, if_neg hne, hdec]
        obtain ⟨ih1, ih2, ih3, ih4⟩ :=
          ih (by omega) rem (by omega) (upd a ((k + 1) * stride) (k * stride))
            (w ++ [(k + 1) * stride])
        refine ⟨?_, ih2, ?_, ?_⟩
        · intro j h1 h2
          by_cases hjk : j = k + 1
          · rw [hjk]
            have hframe : ∀ j2, 1 ≤ j2 → j2 ≤ k → (k + 1) * stride ≠ j2 * stride := by
              intro j2 hj2a hj2b heq
              have h4 : k + 1 = j2 := Nat.eq_of_mul_eq_mul_right (by omega) heq
              omega
            rw [ih3 ((k + 1) * stride) hne hframe, upd_same]
            rfl
          · exact ih1 j h1 (by omega)
        · intro q hq0 hq
          rw [ih3 q hq0 (fun j2 h2 h3 => hq j2 h2 (by omega))]
          exact upd_other _ _ _ _ (hq (k + 1) (by omega) (Nat.le_refl _))
        · rw [ih4]
          have hfun : ((fun t => (k + 1 - t) * stride) ∘ Nat.succ)
              = fun t => (k - t) * stride := by
            funext t
            simp only [Function.comp]
            congr 1
            omega
          have hr : (List.range (k + 1 + 1)).map (fun t => (k + 1 - t) * stride)
              = ((k + 1) * stride) :: (List.range (k + 1)).map (fun t => (k - t) * stride) := by
            rw [List.range_succ_eq_map, List.map_cons, List.map_map, hfun]
            simp
          rw [hr]
          simp

theorem fillReverse_spec (stride elems : Nat) (a : Buf) (hs : 1 ≤ stride) (he : 1 ≤ elems)
    (hov : (elems - 1) * stride < U32) :
    (∀ j, 1 ≤ j → j < elems →
      (fillReverseIndexes stride elems a).1 (j * stride) = (j - 1) * stride) ∧
    (fillReverseIndexes stride elems a).1 0 = (elems - 1) * stride ∧
    (∀ q, q ≠ 0 → (∀ j, 1 ≤ j → j < elems → q ≠ j * stride) →
      (fillReverseIndexes stride elems a).1 q = a q) ∧
    (fillReverseIndexes stride elems a).2
      = (List.range elems).map (fun t => (elems - 1 - t) * stride) := by
  by_cases h1 : elems = 1
  · subst h1
    have hB : ((1 : Nat) + U32 - 1) % U32 = 0 := by
      have h2 : (1 : Nat) + U32 - 1 = U32 := by omega
      rw [h2, Nat.mod_self]
    unfold fillReverseIndexes
    rw [hB, Nat.mul_zero, Nat.zero_mod]
    have hstep : fillReverseLoop stride 0 1 0 (a, []) = (upd a 0 0, [] ++ [0]) := by
      simp [fillReverseLoop]
    rw [hstep]
    refine ⟨?_, ?_, ?_, ?_⟩
    · intro j hj1 hj2; omega
    · show upd a 0 0 0 = (1 - 1) * stride
      rw [upd_same]
      simp
    · intro q hq _; exact upd_other _ _ _ _ hq
    · simp
  · have he2 : 2 ≤ elems := by omega
    have hsM : stride < U32 := by
      have : stride ≤ (elems - 1) * stride := by
        calc stride = 1 * stride := (Nat.one_mul _).symm
        _ ≤ (elems - 1) * stride := Nat.mul_le_mul_right stride (by omega)
      omega
    have hB := fill_B_eq stride elems hs he hov
    obtain ⟨hh1, hh2, hh3, hh4⟩ :=
      reverseLoop_spec stride elems hs hsM hov (elems - 1) (by omega) elems (by omega) a []
    unfold fillReverseIndexes
    rw [hB]
    refine ⟨fun j hj1 hj2 => hh1 j hj1 (by omega), hh2,
      fun q hq0 hq => hh3 q hq0 (fun j h2 h3 => hq j h2 (by omega)), ?_⟩
    rw [hh4]
    have hek : elems - 1 + 1 = elems := by omega
    rw [hek]
    simp

theorem direct_chase_foot (stride elems : Nat) (a : Buf) (hs : 1 ≤ stride) (he : 1 ≤ elems)
    (hov : (elems - 1) * stride < U32) :
    ∀ t, inFoot stride elems (chase (fillDirectIndexes stride elems a).1 t 0) := by
  obtain ⟨h1, h2, h3, h4⟩ := fillDirect_spec stride elems a hs he hov
  intro t
  refine chase_closure _ (inFoot stride elems) ?_ t 0
    ⟨0, List.mem_range.mpr (by omega), by simp⟩
  intro q hq
  obtain ⟨k, hk, rfl⟩ := hq
  have hklt : k < elems := List.mem_range.mp hk
  by_cases hke : k + 1 < elems
  · rw [h1 k hke]
    exact ⟨k + 1, List.mem_range.mpr hke, rfl⟩
  · have hkeq : k = elems - 1 := by omega
    rw [hkeq, h2]
    exact ⟨0, List.mem_range.mpr (by omega), by simp⟩

theorem reverse_chase_foot (stride elems : Nat) (a : Buf) (hs : 1 ≤ stride) (he : 1 ≤ elems)
    (hov : (elems - 1) * stride < U32) :
    ∀ t, inFoot stride elems (chase (fillReverseIndexes stride elems a).1 t 0) := by
  obtain ⟨h1, h2, h3, h4⟩ := fillReverse_spec stride elems a hs he hov
  intro t
  refine chase_closure _ (inFoot stride elems) ?_ t 0
    ⟨0, List.mem_range.mpr (by omega), by simp⟩
  intro q hq
  obtain ⟨k, hk, rfl⟩ := hq
  have hklt : k < elems := List.mem_range.mp hk
  by_cases hk0 : k = 0
  · rw [hk0, Nat.zero_mul, h2]
    exact ⟨elems - 1, List.mem_range.mpr (by omega), rfl⟩
  · rw [h1 k (by omega) hklt]
    exact ⟨k - 1, List.mem_range.mpr (by omega), rfl⟩

theorem shuffled_chase_foot (stride elems seed : Nat) (p : List Nat) (a : Buf)
    (hs : 1 ≤ stride) (he : 1 ≤ elems) (hov : (elems - 1) * stride < U32)
    (hp : p.Perm (List.range elems)) :
    ∀ t, inFoot stride elems (chase (fillShuffledIndexes stride elems seed p a).1 t 0) := by
  intro t
  refine chase_closure _ (inFoot stride elems) ?_ t 0
    ⟨0, List.mem_range.mpr (by omega), by simp⟩
  intro q hq
  obtain ⟨k, hk, rfl⟩ := hq
  have hklt : k < elems := List.mem_range.mp hk
  have hkp : k ∈ p := hp.mem_iff.mpr hk
  obtain ⟨j, hjlen, hj⟩ := List.getElem_of_mem hkp
  have hjlt : j < elems := by rw [← perm_range_length elems p hp]; exact hjlen
  have hgd : p.getD j 0 = k := by rw [List.getD_eq_getElem p 0 hjlen]; exact hj
  rw [← hgd, shuffled_apply stride elems seed p a hs hov hp j hjlt]
  exact ⟨p.getD ((j + 1) % elems) 0,
    List.mem_range.mpr (perm_range_getD_lt elems p hp _ (Nat.mod_lt _ (by omega))), rfl⟩

/-- Claim C3 (corrected form): for every `stride ≥ 1` and `elems ≥ 1` with
`(elems-1)*stride < 2^32` (no 32-bit index overflow), each pattern
generator writes only to buffer positions in
`{0, stride, ..., (elems-1)*stride}`, every buffer cell outside that
footprint is left unchanged, and the subsequent pointer chase starting at
position 0 reads only positions in that same set. -/
theorem claim_C3 (stride elems seed : Nat) (p : List Nat) (a : Buf)
    (hs : 1 ≤ stride) (he : 1 ≤ elems) (hov : (elems - 1) * stride < U32)
    (hp : p.Perm (List.range elems)) :
    ((∀ q ∈ (fillDirectIndexes stride elems a).2, inFoot stride elems q) ∧
     (∀ q, ¬ inFoot stride elems q → (fillDirectIndexes stride elems a).1 q = a q) ∧
     (∀ t, inFoot stride elems (chase (fillDirectIndexes stride elems a).1 t 0))) ∧
    ((∀ q ∈ (fillReverseIndexes stride elems a).2, inFoot stride elems q) ∧
     (∀ q, ¬ inFoot stride elems q → (fillReverseIndexes stride elems a).1 q = a q) ∧
     (∀ t, inFoot stride elems (chase (fillReverseIndexes stride elems a).1 t 0))) ∧
    ((∀ q ∈ (fillShuffledIndexes stride elems seed p a).2, inFoot stride elems q) ∧
     (∀ q, ¬ inFoot stride elems q →
        (fillShuffledIndexes stride elems seed p a).1 q = a q) ∧
     (∀ t, inFoot stride elems
        (chase (fillShuffledIndexes stride elems seed p a).1 t 0))) := by
  obtain ⟨d1, d2, d3, d4⟩ := fillDirect_spec stride elems a hs he hov
  obtain ⟨r1, r2, r3, r4⟩ := fillReverse_spec stride elems a hs he hov
  refine ⟨⟨?_, ?_, direct_chase_foot stride elems a hs he hov⟩,
    ⟨?_, ?_, reverse_chase_foot stride elems a hs he hov⟩,
    ⟨?_, shuffled_frame stride elems seed p a hs hov hp,
      shuffled_chase_foot stride elems seed p a hs he hov hp⟩⟩
  · intro q hq
    rw [d4] at hq
    obtain ⟨k, hk, rfl⟩ := List.mem_map.mp hq
    exact ⟨k, hk, rfl⟩
  · intro q hnf
    exact d3 q (fun j hj hq => hnf ⟨j, List.mem_range.mpr hj, hq⟩)
  · intro q hq
    rw [r4] at hq
    obtain ⟨k, hk, rfl⟩ := List.mem_map.mp hq
    exact ⟨elems - 1 - k, List.mem_range.mpr (by omega), rfl⟩
  · intro q hnf
    have hq0 : q ≠ 0 := fun h =>
      hnf ⟨0, List.mem_range.mpr (by omega), by rw [h, Nat.zero_mul]⟩
    exact r3 q hq0 (fun j h1 h2 hq => hnf ⟨j, List.mem_range.mpr h2, hq⟩)
  · intro q hq
    rw [fillShuffled_snd] at hq
    obtain ⟨k, hk, rfl⟩ := List.mem_map.mp hq
    have hklt : k < elems := List.mem_range.mp hk
    rw [shufAddr_eq stride elems p hs hov hp k hklt]
    exact ⟨p.getD k 0, List.mem_range.mpr (perm_range_getD_lt elems p hp k hklt), rfl⟩

/-- Witness for claim C3: stride 1, elems 2, shuffle output [1, 0]. -/
theorem claim_C3_witness :
    (1 ≤ 1 ∧ 1 ≤ 2 ∧ (2 - 1) * 1 < U32 ∧ ([1, 0] : List Nat).Perm (List.range 2)) ∧
    (((∀ q ∈ (fillDirectIndexes 1 2 zbuf).2, inFoot 1 2 q) ∧
      (∀ q, ¬ inFoot 1 2 q → (fillDirectIndexes 1 2 zbuf).1 q = zbuf q) ∧
      (∀ t, inFoot 1 2 (chase (fillDirectIndexes 1 2 zbuf).1 t 0))) ∧
     ((∀ q ∈ (fillReverseIndexes 1 2 zbuf).2, inFoot 1 2 q) ∧
      (∀ q, ¬ inFoot 1 2 q → (fillReverseIndexes 1 2 zbuf).1 q = zbuf q) ∧
      (∀ t, inFoot 1 2 (chase (fillReverseIndexes 1 2 zbuf).1 t 0))) ∧
     ((∀ q ∈ (fillShuffledIndexes 1 2 42 [1, 0] zbuf).2, inFoot 1 2 q) ∧
      (∀ q, ¬ inFoot 1 2 q → (fillShuffledIndexes 1 2 42 [1, 0] zbuf).1 q = zbuf q) ∧
      (∀ t, inFoot 1 2 (chase (fillShuffledIndexes 1 2 42 [1, 0] zbuf).1 t 0)))) :=
  ⟨⟨by decide, by decide, by decide, by decide⟩,
   claim_C3 1 2 42 [1, 0] zbuf (by decide) (by decide) (by decide) (by decide)⟩

/-- Counterexample to claim C3 as stated: at stride `2^32 - 1`, elems 3,
shuffle output [0, 1, 2], the write of iteration 2 goes to the 32-bit
wrapped address `2*(2^32-1) mod 2^32 = 2^32 - 2`, which is not one of the
footprint positions `{0, 2^32-1, 2*(2^32-1)}`; the cell at `2^32 - 2` is
modified even though it lies outside the footprint. -/
theorem claim_C3_counterexample :
    (1 ≤ U32 - 1 ∧ 1 ≤ 3 ∧ ([0, 1, 2] : List Nat).Perm (List.range 3)) ∧
    (U32 - 2) ∈ (fillShuffledIndexes (U32 - 1) 3 42 [0, 1, 2] bufSeven).2 ∧
    ¬ inFoot (U32 - 1) 3 (U32 - 2) ∧
    (fillShuffledIndexes (U32 - 1) 3 42 [0, 1, 2] bufSeven).1 (U32 - 2) ≠ bufSeven (U32 - 2) :=
  ⟨⟨by decide, by decide, by decide⟩, by decide, by decide, by decide⟩

/-- Claim C7 (corrected form): for every `stride ≥ 1` and `elems ≥ 1` with
`(elems-1)*stride < 2^32` (no 32-bit index overflow), `fillDirectIndexes`
writes `buffer[i*stride] = (i+1)*stride` for `i` in `0..elems-2` and
`buffer[(elems-1)*stride] = 0`, and `fillReverseIndexes` writes
`buffer[i*stride] = (i-1)*stride` for `i` in `1..elems-1` and
`buffer[0] = (elems-1)*stride`; for `elems = 4`, `stride = 1` the direct
pattern yields buffer [1,2,3,0] and the reverse pattern [3,0,1,2]. -/
theorem claim_C7 :
    (∀ (stride elems : Nat) (a : Buf), 1 ≤ stride → 1 ≤ elems →
      (elems - 1) * stride < U32 →
      ((∀ j, j + 1 < elems →
          (fillDirectIndexes stride elems a).1 (j * stride) = (j + 1) * stride) ∧
       (fillDirectIndexes stride elems a).1 ((elems - 1) * stride) = 0 ∧
       (∀ j, 1 ≤ j → j < elems →
          (fillReverseIndexes stride elems a).1 (j * stride) = (j - 1) * stride) ∧
       (fillReverseIndexes stride elems a).1 0 = (elems - 1) * stride)) ∧
    ((fillDirectIndexes 1 4 zbuf).1 0 = 1 ∧ (fillDirectIndexes 1 4 zbuf).1 1 = 2 ∧
     (fillDirectIndexes 1 4 zbuf).1 2 = 3 ∧ (fillDirectIndexes 1 4 zbuf).1 3 = 0 ∧
     (fillReverseIndexes 1 4 zbuf).1 0 = 3 ∧ (fillReverseIndexes 1 4 zbuf).1 1 = 0 ∧
     (fillReverseIndexes 1 4 zbuf).1 2 = 1 ∧ (fillReverseIndexes 1 4 zbuf).1 3 = 2) := by
  constructor
  · intro stride elems a hs he hov
    obtain ⟨d1, d2, d3, d4⟩ := fillDirect_spec stride elems a hs he hov
    obtain ⟨r1, r2, r3, r4⟩ := fillReverse_spec stride elems a hs he hov
    exact ⟨d1, d2, r1, r2⟩
  · exact ⟨by decide, by decide, by decide, by decide,
      by decide, by decide, by decide, by decide⟩

/-- Witness for claim C7: stride 1, elems 4, on the zero buffer. -/
theorem claim_C7_witness :
    (1 ≤ 1 ∧ 1 ≤ 4 ∧ (4 - 1) * 1 < U32) ∧
    ((∀ j, j + 1 < 4 → (fillDirectIndexes 1 4 zbuf).1 (j * 1) = (j + 1) * 1) ∧
     (fillDirectIndexes 1 4 zbuf).1 ((4 - 1) * 1) = 0 ∧
     (∀ j, 1 ≤ j → j < 4 → (fillReverseIndexes 1 4 zbuf).1 (j * 1) = (j - 1) * 1) ∧
     (fillReverseIndexes 1 4 zbuf).1 0 = (4 - 1) * 1) :=
  ⟨⟨by decide, by decide, by decide⟩,
   claim_C7.1 1 4 zbuf (by decide) (by decide) (by decide)⟩

/-- Counterexample to claim C7 as stated: at stride `2^32 - 1`, elems 3
(both allowed by the claim), the direct generator's 32-bit loop bound is
`2*(2^32-1) mod 2^32 = 2^32 - 2`; after writing position 0 the index jumps
past the bound and the loop exits, so position `1*(2^32-1)` never receives
the claimed value `2*(2^32-1)`. -/
theorem claim_C7_counterexample :
    (1 ≤ U32 - 1 ∧ 1 ≤ 3) ∧
    ¬ ((fillDirectIndexes (U32 - 1) 3 bufSeven).1 (1 * (U32 - 1)) = (1 + 1) * (U32 - 1)) :=
  ⟨⟨by decide, by decide⟩, by decide⟩

theorem chaseLoop_fst (b : Buf) : ∀ (n idx : Nat),
    (chaseLoop b n idx).1 = (List.range n).map (fun t => chase b t idx) := by
  intro n
  induction n with
  | zero => intro idx; rfl
  | succ n ih =>
      intro idx
      simp only [chaseLoop]
      rw [ih (b idx), List.range_succ_eq_map, List.map_cons, List.map_map]
      congr 1

theorem chaseLoop_snd (b : Buf) : ∀ (n idx : Nat),
    (chaseLoop b n idx).2 = chase b n idx := by
  intro n
  induction n with
  | zero => intro idx; rfl
  | succ n ih =>
      intro idx
      simp only [chaseLoop, chase]
      exact ih (b idx)

theorem tOAR_fold_spec (env : SweepEnv) (stride elems rc wc : Nat) (buf0 : Buf) (c0 m0 : Nat) :
    ∀ bc : Nat,
      ((List.range bc).foldl (batchStep env stride elems rc wc)
          ⟨buf0, c0, m0, 0, 0, [], []⟩).buf = bufAfter env stride elems buf0 c0 bc ∧
      ((List.range bc).foldl (batchStep env stride elems rc wc)
          ⟨buf0, c0, m0, 0, 0, [], []⟩).shufC = c0 + bc ∧
      ((List.range bc).foldl (batchStep env stride elems rc wc)
          ⟨buf0, c0, m0, 0, 0, [], []⟩).measC = m0 + bc ∧
      ((List.range bc).foldl (batchStep env stride elems rc wc)
          ⟨buf0, c0, m0, 0, 0, [], []⟩).diff
        = ((List.range bc).map (fun b => env.measures (m0 + b))).sum ∧
      ((List.range bc).foldl (batchStep env stride elems rc wc)
          ⟨buf0, c0, m0, 0, 0, [], []⟩).warmTraces
        = (List.range bc).map
            (fun b => (chaseLoop (bufAfter env stride elems buf0 c0 (b + 1)) wc 0).1) ∧
      ((List.range bc).foldl (batchStep env stride elems rc wc)
          ⟨buf0, c0, m0, 0, 0, [], []⟩).timedTraces
        = (List.range bc).map
            (fun b => (chaseLoop (bufAfter env stride elems buf0 c0 (b + 1)) rc 0).1) := by
  intro bc
  induction bc with
  | zero => exact ⟨rfl, rfl, rfl, by simp, rfl, rfl⟩
  | succ bc ih =>
      obtain ⟨ib, ic, im, idf, iw, it⟩ := ih
      rw [List.range_succ, List.foldl_append]
      simp only [List.foldl_cons, List.foldl_nil, batchStep]
      refine ⟨?_, ?_, ?_, ?_, ?_, ?_⟩
      · rw [ib, ic]
        rfl
      · rw [ic]
        omega
      · rw [im]
        omega
      · rw [idf, im, List.map_append, List.sum_append]
        simp
      · rw [iw, ib, ic, List.map_append]
        rfl
      · rw [it, ib, ic, List.map_append]
        rfl

/-- Claim C4: `timeOfArrayRead(stride, elems, readsCount, warnupReadsCount,
batchesCount)` regenerates the shuffled pattern once per batch —
`batchesCount` nested fresh `fillShuffledIndexes` applications, each
consuming the next draw of the shuffle engine — and returns the
accumulated sum of the `batchesCount` timed intervals divided by
`batchesCount`. -/
theorem claim_C4 (env : SweepEnv) (stride elems rc wc bc : Nat) (buf0 : Buf) (c0 m0 : Nat) :
    (timeOfArrayRead env stride elems rc wc bc buf0 c0 m0).1
      = ((List.range bc).map (fun b => env.measures (m0 + b))).sum / bc ∧
    (timeOfArrayRead env stride elems rc wc bc buf0 c0 m0).2.shufC = c0 + bc ∧
    (timeOfArrayRead env stride elems rc wc bc buf0 c0 m0).2.buf
      = bufAfter env stride elems buf0 c0 bc := by
  obtain ⟨ib, ic, im, idf, iw, it⟩ := tOAR_fold_spec env stride elems rc wc buf0 c0 m0 bc
  simp only [timeOfArrayRead]
  exact ⟨by rw [idf], ic, ib⟩

/-- Claim C2 (corrected form): within each batch of `timeOfArrayRead`, the
timed phase resets its index to 0 — its `readsCount` chained reads
are the chase of the batch's freshly generated pattern starting at
position 0, not a continuation from the warmup's final index (the warmup
phase likewise starts at 0). -/
theorem claim_C2 (env : SweepEnv) (stride elems rc wc bc : Nat) (buf0 : Buf) (c0 m0 : Nat) :
    (timeOfArrayRead env stride elems rc wc bc buf0 c0 m0).2.timedTraces
      = (List.range bc).map (fun b => (List.range rc).map
          (fun t => chase (bufAfter env stride elems buf0 c0 (b + 1)) t 0)) ∧
    (timeOfArrayRead env stride elems rc wc bc buf0 c0 m0).2.warmTraces
      = (List.range bc).map (fun b => (List.range wc).map
          (fun t => chase (bufAfter env stride elems buf0 c0 (b + 1)) t 0)) := by
  obtain ⟨ib, ic, im, idf, iw, it⟩ := tOAR_fold_spec env stride elems rc wc buf0 c0 m0 bc
  simp only [timeOfArrayRead]
  constructor
  · rw [it]
    exact List.map_congr_left (fun b hb => chaseLoop_fst _ rc 0)
  · rw [iw]
    exact List.map_congr_left (fun b hb => chaseLoop_fst _ wc 0)

/-- Counterexample to claim C2 as stated: with stride 1, elems 2, one
batch, one warmup read and one timed read, identity shuffle, the warmup
ends at index 1 but the timed phase's first (and only) read is at address
0, not 1 — the timed chase does not continue from where the warmup left
off. -/
theorem claim_C2_counterexample :
    ¬ timedContinuesFromWarmup envC 1 2 1 1 1 bufSeven 0 0 := by
  unfold timedContinuesFromWarmup
  decide

theorem innerStep_cells (env : SweepEnv) (stride : Nat) (s : SweepState) (e : Nat) :
    (innerStep env stride s e).cells
      = s.cells ++ [⟨stride, s.stridePow, e,
          (timeOfArrayRead env stride e ARRAY_READS_COUNT WARNUP_READS_COUNT BATCHES_COUNT
            s.buf s.shufC s.measC).1⟩] := rfl

theorem innerStep_stridePow (env : SweepEnv) (stride : Nat) (s : SweepState) (e : Nat) :
    (innerStep env stride s e).stridePow = s.stridePow := rfl

theorem innerStep_times (env : SweepEnv) (stride : Nat) (s : SweepState) (e : Nat) :
    (innerStep env stride s e).times
      = upd2 s.times e s.stridePow
          (timeOfArrayRead env stride e ARRAY_READS_COUNT WARNUP_READS_COUNT BATCHES_COUNT
            s.buf s.shufC s.measC).1 := rfl

theorem innerStep_jumps (env : SweepEnv) (stride : Nat) (s : SweepState) (e : Nat) :
    (innerStep env stride s e).jumps = s.jumps := by
  simp [innerStep]

theorem innerFold_jumps (env : SweepEnv) (stride : Nat) :
    ∀ (es : List Nat) (s : SweepState),
      (es.foldl (innerStep env stride) s).jumps = s.jumps := by
  intro es
  induction es with
  | nil => intro s; rfl
  | cons e es ih =>
      intro s
      rw [List.foldl_cons, ih, innerStep_jumps]

theorem innerFold_stridePow (env : SweepEnv) (stride : Nat) :
    ∀ (es : List Nat) (s : SweepState),
      (es.foldl (innerStep env stride) s).stridePow = s.stridePow := by
  intro es
  induction es with
  | nil => intro s; rfl
  | cons e es ih =>
      intro s
      rw [List.foldl_cons, ih, innerStep_stridePow]

theorem sweepLoop_step (env : SweepEnv) (ma ms fuel stride : Nat) (s : SweepState)
    (h : (stride * 4) % U32 ≤ ms) :
    sweepLoop env ma ms (fuel + 1) stride s
      = sweepLoop env ma ms fuel ((stride * 2) % U32)
          (bumpPow ((elemsList ma).foldl (innerStep env stride) s)) := by
  simp only [sweepLoop]
  rw [if_pos h]

theorem sweepLoop_stop (env : SweepEnv) (ma ms fuel stride : Nat) (s : SweepState)
    (h : ¬ (stride * 4) % U32 ≤ ms) :
    sweepLoop env ma ms (fuel + 1) stride s = s := by
  simp only [sweepLoop]
  rw [if_neg h]

theorem strideSeq_step (ms fuel stride pow : Nat) (h : (stride * 4) % U32 ≤ ms) :
    strideSeq ms (fuel + 1) stride pow
      = (stride, pow) :: strideSeq ms fuel ((stride * 2) % U32) (pow + 1) := by
  simp only [strideSeq]
  rw [if_pos h]

theorem strideSeq_stop (ms fuel stride pow : Nat) (h : ¬ (stride * 4) % U32 ≤ ms) :
    strideSeq ms (fuel + 1) stride pow = [] := by
  simp only [strideSeq]
  rw [if_neg h]

theorem sweepLoop_jumps (env : SweepEnv) (ma ms : Nat) :
    ∀ (fuel stride : Nat) (s : SweepState),
      (sweepLoop env ma ms fuel stride s).jumps = s.jumps := by
  intro fuel
  induction fuel with
  | zero => intro stride s; rfl
  | succ fuel ih =>
      intro stride s
      by_cases h : (stride * 4) % U32 ≤ ms
      · rw [sweepLoop_step env ma ms fuel stride s h, ih]
        show ((elemsList ma).foldl (innerStep env stride) s).jumps = s.jumps
        exact innerFold_jumps env stride (elemsList ma) s
      · rw [sweepLoop_stop env ma ms fuel stride s h]

theorem innerFold_cells (env : SweepEnv) (stride : Nat) :
    ∀ (es : List Nat) (s : SweepState),
      (es.foldl (innerStep env stride) s).cells.map cellKey
        = s.cells.map cellKey ++ es.map (fun e => (stride, s.stridePow, e)) := by
  intro es
  induction es with
  | nil => intro s; simp
  | cons e es ih =>
      intro s
      rw [List.foldl_cons, ih, innerStep_cells, innerStep_stridePow, List.map_append]
      simp [cellKey]

theorem sweepLoop_cells (env : SweepEnv) (ma ms : Nat) :
    ∀ (fuel stride : Nat) (s : SweepState),
      (sweepLoop env ma ms fuel stride s).cells.map cellKey
        = s.cells.map cellKey ++ enumCells ma (strideSeq ms fuel stride s.stridePow) := by
  intro fuel
  induction fuel with
  | zero => intro stride s; simp [sweepLoop, strideSeq, enumCells]
  | succ fuel ih =>
      intro stride s
      by_cases h : (stride * 4) % U32 ≤ ms
      · rw [sweepLoop_step env ma ms fuel stride s h, ih, strideSeq_step ms fuel stride _ h]
        have hcells : (bumpPow ((elemsList ma).foldl (innerStep env stride) s)).cells
            = ((elemsList ma).foldl (innerStep env stride) s).cells := rfl
        have hpow : (bumpPow ((elemsList ma).foldl (innerStep env stride) s)).stridePow
            = s.stridePow + 1 := by
          show ((elemsList ma).foldl (innerStep env stride) s).stridePow + 1 = s.stridePow + 1
          rw [innerFold_stridePow]
        rw [hcells, hpow, innerFold_cells]
        simp only [enumCells, List.append_assoc]
      · rw [sweepLoop_stop env ma ms fuel stride s h, strideSeq_stop ms fuel stride _ h]
        simp [enumCells]

theorem elemsList_nodup (ma : Nat) : (elemsList ma).Nodup := by
  unfold elemsList
  exact List.Nodup.map (fun a b h => by omega) (List.nodup_range (ma - 1))

theorem innerFold_times (env : SweepEnv) (stride : Nat) :
    ∀ (es : List Nat) (s : SweepState), es.Nodup →
      (∀ c ∈ s.cells, s.times c.elems c.pow = c.value ∧ c.pow ≤ s.stridePow
        ∧ (c.pow = s.stridePow → c.elems ∉ es)) →
      ∀ c ∈ (es.foldl (innerStep env stride) s).cells,
        (es.foldl (innerStep env stride) s).times c.elems c.pow = c.value
        ∧ c.pow ≤ (es.foldl (innerStep env stride) s).stridePow := by
  intro es
  induction es with
  | nil =>
      intro s hnd hinv c hc
      exact ⟨(hinv c hc).1, (hinv c hc).2.1⟩
  | cons e es ih =>
      intro s hnd hinv
      rw [List.foldl_cons]
      apply ih (innerStep env stride s e) (List.Nodup.of_cons hnd)
      intro c hc
      rw [innerStep_cells] at hc
      rw [innerStep_times, innerStep_stridePow]
      rcases List.mem_append.mp hc with hold | hnew
      · obtain ⟨h1, h2, h3⟩ := hinv c hold
        refine ⟨?_, h2, ?_⟩
        · unfold upd2
          by_cases hce : c.elems = e
          · have hcp : ¬ c.pow = s.stridePow := by
              intro hp
              exact (h3 hp) (by rw [hce]; exact List.mem_cons_self e es)
            simp only [if_pos hce, if_neg hcp]
            exact h1
          · simp only [if_neg hce]
            exact h1
        · intro hp hmem
          exact (h3 hp) (List.mem_cons_of_mem e hmem)
      · have hceq : c = ⟨stride, s.stridePow, e,
            (timeOfArrayRead env stride e ARRAY_READS_COUNT WARNUP_READS_COUNT BATCHES_COUNT
              s.buf s.shufC s.measC).1⟩ := by
          simpa using hnew
        subst hceq
        refine ⟨?_, Nat.le_refl _, ?_⟩
        · simp [upd2]
        · intro _
          exact (List.nodup_cons.mp hnd).1

theorem sweepLoop_times (env : SweepEnv) (ma ms : Nat) :
    ∀ (fuel stride : Nat) (s : SweepState),
      (∀ c ∈ s.cells, s.times c.elems c.pow = c.value ∧ c.pow < s.stridePow) →
      ∀ c ∈ (sweepLoop env ma ms fuel stride s).cells,
        (sweepLoop env ma ms fuel stride s).times c.elems c.pow = c.value := by
  intro fuel
  induction fuel with
  | zero => intro stride s hinv c hc; exact (hinv c hc).1
  | succ fuel ih =>
      intro stride s hinv
      by_cases h : (stride * 4) % U32 ≤ ms
      · rw [sweepLoop_step env ma ms fuel stride s h]
        apply ih
        intro c hc
        have hin := innerFold_times env stride (elemsList ma) s (elemsList_nodup ma)
          (fun c2 hc2 => ⟨(hinv c2 hc2).1, Nat.le_of_lt (hinv c2 hc2).2,
            fun hp _ => absurd hp (Nat.ne_of_lt (hinv c2 hc2).2)⟩) c hc
        refine ⟨hin.1, ?_⟩
        show c.pow < ((elemsList ma).foldl (innerStep env stride) s).stridePow + 1
        omega
      · rw [sweepLoop_stop env ma ms fuel stride s h]
        intro c hc
        exact (hinv c hc).1

theorem mem_elemsList (ma e : Nat) (he : e ∈ elemsList ma) : 1 ≤ e ∧ e < ma := by
  unfold elemsList at he
  obtain ⟨k, hk, rfl⟩ := List.mem_map.mp he
  have hk2 : k < ma - 1 := List.mem_range.mp hk
  omega

theorem mem_enumCells (ma : Nat) :
    ∀ (l : List (Nat × Nat)) (x : Nat × Nat × Nat), x ∈ enumCells ma l →
      ∃ sp ∈ l, ∃ e ∈ elemsList ma, x = (sp.1, sp.2, e) := by
  intro l
  induction l with
  | nil => intro x hx; simp [enumCells] at hx
  | cons sp rest ih =>
      intro x hx
      simp only [enumCells] at hx
      rcases List.mem_append.mp hx with h1 | h2
      · obtain ⟨e, he, rfl⟩ := List.mem_map.mp h1
        exact ⟨sp, List.mem_cons_self sp rest, e, he, rfl⟩
      · obtain ⟨sp2, hsp2, e, he, hx2⟩ := ih x h2
        exact ⟨sp2, List.mem_cons_of_mem sp hsp2, e, he, hx2⟩

theorem strideSeq_bound :
    ∀ (fuel stride pow : Nat), 1 ≤ stride → stride < 2 ^ 30 →
      ∀ sp ∈ strideSeq (2 ^ 25) fuel stride pow, 1 ≤ sp.1 ∧ sp.1 ≤ 2 ^ 23 := by
  intro fuel
  induction fuel with
  | zero =>
      intro stride pow h1 h2 sp hsp
      simp [strideSeq] at hsp
  | succ fuel ih =>
      intro stride pow h1 h2 sp hsp
      by_cases hg : (stride * 4) % U32 ≤ 2 ^ 25
      · rw [strideSeq_step _ fuel stride pow hg] at hsp
        have h4 : stride * 4 < U32 := by
          unfold U32
          omega
        have hsmall : stride ≤ 2 ^ 23 := by
          rw [Nat.mod_eq_of_lt h4] at hg
          omega
        rcases List.mem_cons.mp hsp with hhd | htl
        · rw [hhd]
          exact ⟨h1, hsmall⟩
        · have hnext : (stride * 2) % U32 = stride * 2 := by
            apply Nat.mod_eq_of_lt
            unfold U32
            omega
          rw [hnext] at htl
          exact ih (stride * 2) (pow + 1) (by omega) (by omega) sp htl
      · rw [strideSeq_stop _ fuel stride pow hg] at hsp
        simp at hsp

/-- Claim C6: the sweep invokes the Timed Reader exactly once for every
cell (elems, stride), with elems ranging over `1..maxAssociativity-1` and
stride doubling from `minStride/4` elements while `stride*4 <= maxStride`
(inclusive upper bound), and stores each resulting duration into
`times[elems][stridePow]`.  For maxAssociativity 3, minStride 4 bytes,
maxStride 8 bytes, a run populates exactly 2 stride columns and rows for
elems 1..2; each populated cell holds the (non-negative, `Nat`-valued
nanosecond) mean duration of its invocation — here computed from the
environment whose k-th interval is k ns. -/
theorem claim_C6 :
    (∀ (env : SweepEnv) (mm ma ms mns fuel : Nat) (buf0 : Buf) (c0 m0 : Nat),
      (capacityAndAssociativity env mm ma ms mns fuel buf0 c0 m0).cells.map cellKey
        = enumCells ma (strideSeq ms fuel (mns / 4) 0)) ∧
    (∀ (env : SweepEnv) (mm ma ms mns fuel : Nat) (buf0 : Buf) (c0 m0 : Nat),
      ∀ c ∈ (capacityAndAssociativity env mm ma ms mns fuel buf0 c0 m0).cells,
        (capacityAndAssociativity env mm ma ms mns fuel buf0 c0 m0).times c.elems c.pow
          = c.value) ∧
    ((capacityAndAssociativity envC (2 ^ 30) 3 8 4 10 zbuf 0 0).cells
        = [⟨1, 0, 1, 2⟩, ⟨1, 0, 2, 7⟩, ⟨2, 1, 1, 12⟩, ⟨2, 1, 2, 17⟩] ∧
     (capacityAndAssociativity envC (2 ^ 30) 3 8 4 10 zbuf 0 0).stridePow = 2 ∧
     (capacityAndAssociativity envC (2 ^ 30) 3 8 4 10 zbuf 0 0).times 1 0 = 2 ∧
     (capacityAndAssociativity envC (2 ^ 30) 3 8 4 10 zbuf 0 0).times 2 0 = 7 ∧
     (capacityAndAssociativity envC (2 ^ 30) 3 8 4 10 zbuf 0 0).times 1 1 = 12 ∧
     (capacityAndAssociativity envC (2 ^ 30) 3 8 4 10 zbuf 0 0).times 2 1 = 17) := by
  refine ⟨?_, ?_, ?_⟩
  · intro env mm ma ms mns fuel buf0 c0 m0
    unfold capacityAndAssociativity
    rw [sweepLoop_cells]
    simp
  · intro env mm ma ms mns fuel buf0 c0 m0
    unfold capacityAndAssociativity
    apply sweepLoop_times
    intro c hc
    simp at hc
  · exact ⟨by decide, by decide, by decide, by decide, by decide, by decide⟩

/-- Witness for claim C6: the first invocation of the concrete instance,
cell (stride 1, column 0, elems 1), was stored in the grid with its mean
duration 2. -/
theorem claim_C6_witness :
    ((⟨1, 0, 1, 2⟩ : Cell)
        ∈ (capacityAndAssociativity envC (2 ^ 30) 3 8 4 10 zbuf 0 0).cells) ∧
    (capacityAndAssociativity envC (2 ^ 30) 3 8 4 10 zbuf 0 0).times 1 0 = 2 :=
  ⟨by decide, claim_C6.2.1 envC (2 ^ 30) 3 8 4 10 zbuf 0 0 ⟨1, 0, 1, 2⟩ (by decide)⟩

theorem string_nil_append (s : String) : "" ++ s = s := by
  cases s with
  | mk d => rfl

/-- Claim C8: after the sweep completes, every cell of the jump-flag grid
is false — the detection logic is hardcoded off — so no rendered cell of
the table carries the "[+]" jump marker: every cell renders as the plain
decimal string of its scaled duration, regardless of the measured
durations (the environment is universally quantified). -/
theorem claim_C8 (env : SweepEnv) (mm ma ms mns fuel : Nat) (buf0 : Buf) (c0 m0 e pw : Nat) :
    (capacityAndAssociativity env mm ma ms mns fuel buf0 c0 m0).jumps e pw = false ∧
    timeWithJump ((capacityAndAssociativity env mm ma ms mns fuel buf0 c0 m0).jumps e pw)
        ((capacityAndAssociativity env mm ma ms mns fuel buf0 c0 m0).times e pw / timeFactor)
      = toString ((capacityAndAssociativity env mm ma ms mns fuel buf0 c0 m0).times e pw
          / timeFactor) := by
  have hj : (capacityAndAssociativity env mm ma ms mns fuel buf0 c0 m0).jumps e pw = false := by
    unfold capacityAndAssociativity
    rw [sweepLoop_jumps]
  refine ⟨hj, ?_⟩
  rw [hj]
  unfold timeWithJump
  rw [if_neg (by simp)]
  exact string_nil_append _

/-- Claim C5: if the startup precondition `maxAssoc * maxStride <=
maxMemory` (32-bit product) is violated — for example maxAssoc 33,
maxStride 2^25, maxMemory 2^30 — the startup exits with status 1 after
printing identifier 1 to the error stream, before the backing buffer is
allocated; if the precondition holds, no such exit occurs and startup
reaches the allocation of `maxMemory / sizeof(uint32_t)` elements. -/
theorem claim_C5 :
    (∀ maxMemory maxAssoc maxStride minStride : Nat,
      (maxAssoc * maxStride) % U32 ≤ maxMemory →
      mainStartup maxMemory maxAssoc maxStride minStride = Except.ok (maxMemory / 4)) ∧
    mainStartup (2 ^ 30) 33 (2 ^ 25) 16 = Except.error (1, 1) := by
  constructor
  · intro mm ma ms mns h
    simp [mainStartup, rassert, decide_eq_true h]
  · rfl

/-- Witness for claim C5: main's actual constants (maxAssoc 32, maxStride
2^25, maxMemory 2^30) satisfy the precondition, and startup reaches the
allocation of 2^28 elements. -/
theorem claim_C5_witness :
    ((32 * 2 ^ 25) % U32 ≤ 2 ^ 30) ∧
    mainStartup (2 ^ 30) 32 (2 ^ 25) 16 = Except.ok (2 ^ 30 / 4) :=
  ⟨by decide, claim_C5.1 (2 ^ 30) 32 (2 ^ 25) 16 (by decide)⟩

/-- Claim C9 (corrected form): the shuffled-pattern generation is
deterministic, but the per-call seed parameter (whose default value is the
constant 42) is unused by `fillShuffledIndexes` — the pattern content is
governed solely by the shuffle engine `gen`, which is seeded with the
fixed constant 239; hence for a given build the sequence of generated
patterns is identical across runs. -/
theorem claim_C9 :
    genSeed = 239 ∧
    ∀ (stride elems seed1 seed2 : Nat) (p : List Nat) (a : Buf),
      fillShuffledIndexes stride elems seed1 p a
        = fillShuffledIndexes stride elems seed2 p a :=
  ⟨rfl, fun _ _ _ _ _ _ => rfl⟩

/-- Counterexample to claim C9 as stated: the pattern content is not
governed by the seed 42 — at stride 1, elems 2, identity shuffle, the
generated buffer is identical whether the seed argument is 0, 42, or
123456, because the seed parameter is dead in the source. -/
theorem claim_C9_counterexample :
    fillShuffledIndexes 1 2 0 [0, 1] zbuf = fillShuffledIndexes 1 2 42 [0, 1] zbuf ∧
    fillShuffledIndexes 1 2 123456 [0, 1] zbuf = fillShuffledIndexes 1 2 42 [0, 1] zbuf :=
  ⟨rfl, rfl⟩

/-- Claim C10: under the constants compiled into `main` (maxMemory 2^30
bytes so arrayLen = 2^28 elements, minStride 16 B, maxStride 2^25 B, sweep
bound 33 exclusive — working sets up to 32 elements even though the
startup check used maxAssoc 32), every buffer index written by any pattern
generator at a cell visited by the sweep, and every index read by any
warmup or timed chase there, is strictly below `2^30 / 4 = 2^28`.  The
permutation stream and fuel are universally quantified; only the shuffled
generator runs in the sweep, but the direct and reverse generators obey
the same bound at every visited cell. -/
theorem claim_C10 (env : SweepEnv) (fuel : Nat) (buf0 : Buf) (c0 m0 : Nat) :
    ∀ c ∈ (capacityAndAssociativity env (2 ^ 30) 33 (2 ^ 25) 16 fuel buf0 c0 m0).cells,
      ∀ (p : List Nat) (a : Buf), p.Perm (List.range c.elems) →
        (∀ q ∈ (fillShuffledIndexes c.stride c.elems 42 p a).2, q < 2 ^ 30 / 4) ∧
        (∀ q ∈ (fillDirectIndexes c.stride c.elems a).2, q < 2 ^ 30 / 4) ∧
        (∀ q ∈ (fillReverseIndexes c.stride c.elems a).2, q < 2 ^ 30 / 4) ∧
        (∀ t, chase (fillShuffledIndexes c.stride c.elems 42 p a).1 t 0 < 2 ^ 30 / 4) := by
  intro c hc p a hp
  have hmap : (capacityAndAssociativity env (2 ^ 30) 33 (2 ^ 25) 16 fuel
        buf0 c0 m0).cells.map cellKey
      = enumCells 33 (strideSeq (2 ^ 25) fuel (16 / 4) 0) := by
    unfold capacityAndAssociativity
    rw [sweepLoop_cells]
    simp
  have hkey : cellKey c ∈ enumCells 33 (strideSeq (2 ^ 25) fuel (16 / 4) 0) := by
    rw [← hmap]
    exact List.mem_map_of_mem cellKey hc
  obtain ⟨sp, hsp, e, he, hkeyeq⟩ := mem_enumCells 33 _ (cellKey c) hkey
  simp only [cellKey, Prod.mk.injEq] at hkeyeq
  obtain ⟨hcs, hcp, hce⟩ := hkeyeq
  have hsb := strideSeq_bound fuel (16 / 4) 0 (by norm_num) (by norm_num) sp hsp
  have hel := mem_elemsList 33 e he
  have hs1 : 1 ≤ c.stride := by rw [hcs]; exact hsb.1
  have hs2 : c.stride ≤ 2 ^ 23 := by rw [hcs]; exact hsb.2
  have he1 : 1 ≤ c.elems := by rw [hce]; omega
  have he2 : c.elems ≤ 32 := by rw [hce]; omega
  have hbound : (c.elems - 1) * c.stride ≤ 31 * 2 ^ 23 := Nat.mul_le_mul (by omega) hs2
  have hov : (c.elems - 1) * c.stride < U32 := by
    unfold U32
    exact lt_of_le_of_lt hbound (by norm_num)
  have harr : 31 * 2 ^ 23 < 2 ^ 30 / 4 := by norm_num
  obtain ⟨d1, d2, d3, d4⟩ := fillDirect_spec c.stride c.elems a hs1 he1 hov
  obtain ⟨r1, r2, r3, r4⟩ := fillReverse_spec c.stride c.elems a hs1 he1 hov
  refine ⟨?_, ?_, ?_, ?_⟩
  · intro q hq
    rw [fillShuffled_snd] at hq
    obtain ⟨i, hi, rfl⟩ := List.mem_map.mp hq
    have hilt : i < c.elems := List.mem_range.mp hi
    rw [shufAddr_eq c.stride c.elems p hs1 hov hp i hilt]
    have hgd : p.getD i 0 < c.elems := perm_range_getD_lt c.elems p hp i hilt
    have hle : p.getD i 0 * c.stride ≤ 31 * 2 ^ 23 := Nat.mul_le_mul (by omega) hs2
    exact lt_of_le_of_lt hle harr
  · intro q hq
    rw [d4] at hq
    obtain ⟨t, ht, rfl⟩ := List.mem_map.mp hq
    have htlt : t < c.elems := List.mem_range.mp ht
    have hle : t * c.stride ≤ 31 * 2 ^ 23 := Nat.mul_le_mul (by omega) hs2
    exact lt_of_le_of_lt hle harr
  · intro q hq
    rw [r4] at hq
    obtain ⟨t, ht, rfl⟩ := List.mem_map.mp hq
    have hle : (c.elems - 1 - t) * c.stride ≤ 31 * 2 ^ 23 := Nat.mul_le_mul (by omega) hs2
    exact lt_of_le_of_lt hle harr
  · intro t
    obtain ⟨k, hk, hkq⟩ := shuffled_chase_foot c.stride c.elems 42 p a hs1 he1 hov hp t
    rw [hkq]
    have hklt : k < c.elems := List.mem_range.mp hk
    have hle : k * c.stride ≤ 31 * 2 ^ 23 := Nat.mul_le_mul (by omega) hs2
    exact lt_of_le_of_lt hle harr

set_option maxRecDepth 100000 in
/-- Witness for claim C10: the sweep's first cell (stride 4 elements,
column 0, elems 1, mean duration 2 under the concrete environment), with
the identity permutation on one element. -/
theorem claim_C10_witness :
    ((⟨4, 0, 1, 2⟩ : Cell)
        ∈ (capacityAndAssociativity envC (2 ^ 30) 33 (2 ^ 25) 16 40 zbuf 0 0).cells
      ∧ ([0] : List Nat).Perm (List.range 1)) ∧
    ((∀ q ∈ (fillShuffledIndexes 4 1 42 [0] zbuf).2, q < 2 ^ 30 / 4) ∧
     (∀ q ∈ (fillDirectIndexes 4 1 zbuf).2, q < 2 ^ 30 / 4) ∧
     (∀ q ∈ (fillReverseIndexes 4 1 zbuf).2, q < 2 ^ 30 / 4) ∧
     (∀ t, chase (fillShuffledIndexes 4 1 42 [0] zbuf).1 t 0 < 2 ^ 30 / 4)) :=
  ⟨⟨by decide, by decide⟩,
   claim_C10 envC 40 zbuf 0 0 ⟨4, 0, 1, 2⟩ (by decide) [0] zbuf (by decide)⟩
